import Mathlib

/-!
Verification of the linear-combination engine in
`src/circuit_proof/linear_combination.rs`.

The engine is generic over a variable kind `V` (the Rust trait `Variable`)
whose associated scalar kind is `V::ValueType`.  We render this shallow
embedding with two explicit type parameters `V` and `S`, passing the
capabilities the traits provide (the `assignment` query, the
`constant_one` wire, the widening maps to the opaque kind, and the
`From<Scalar>` weight conversion) as explicit function arguments.

The sibling modules `assignment.rs`, `scalar_value.rs` and
`opaque_scalar.rs` are not part of the given sources, so the tri-state
`Assignment` type and its arithmetic are modelled from the spec below;
the `ScalarValue` capability (zero, one, `+`, `-`, unary `-`, `*`) is
modelled by the standard algebraic classes on `S`.
-/

/-- Modelled from the spec: the tri-state assignment of a scalar kind `S`
(`assignment.rs` is not under the given sources).  `Value s` is the spec's
`Known(s)`; `Missing` is the spec's `Unknown`, the state where the value
cannot be computed because some input is not yet known. -/
inductive Assignment (S : Type) where
  | Value (s : S) : Assignment S
  | Missing : Assignment S
deriving DecidableEq, Repr

namespace Assignment

/-- Modelled from the spec: tri-state addition; `Unknown` absorbs
(`Unknown op x = Unknown`, `x op Unknown = Unknown`). -/
def add {S : Type} [Add S] : Assignment S → Assignment S → Assignment S
  | Value a, Value b => Value (a + b)
  | _, _ => Missing

/-- Modelled from the spec: tri-state subtraction with `Unknown` absorption. -/
def sub {S : Type} [Sub S] : Assignment S → Assignment S → Assignment S
  | Value a, Value b => Value (a - b)
  | _, _ => Missing

/-- Modelled from the spec: tri-state multiplication with `Unknown` absorption. -/
def mul {S : Type} [Mul S] : Assignment S → Assignment S → Assignment S
  | Value a, Value b => Value (a * b)
  | _, _ => Missing

/-- Modelled from the spec: tri-state negation. -/
def neg {S : Type} [Neg S] : Assignment S → Assignment S
  | Value a => Value (-a)
  | Missing => Missing

/-- Modelled from the spec: the clear-to-opaque conversion on assignments
maps `Known(s)` to `Known(s.to_opaque())` and `Unknown` to `Unknown`.
The scalar-level widening is the explicit argument `f`. -/
def into_opaque {S T : Type} (f : S → T) : Assignment S → Assignment T
  | Value a => Value (f a)
  | Missing => Missing

end Assignment

/-- The linear combination of `src/circuit_proof/linear_combination.rs`:
an ordered list of `(variable, weight)` terms together with the
incrementally maintained tri-state evaluation `precomputed`
(the spec's `cached_eval`). -/
structure LinearCombination (V S : Type) where
  terms : List (V × S)
  precomputed : Assignment S
deriving Repr

/-- `impl IntoLC<V> for LinearCombination`: an existing linear combination
canonicalizes to itself. -/
def LinearCombination.into_lc {V S : Type} (lc : LinearCombination V S) :
    LinearCombination V S :=
  lc

/-- `impl IntoLC<V> for Scalar`: a bare clear-scalar constant `s` becomes
the single term `(V::constant_one(), s.into())` with precomputed
`Assignment::Value(s.into())`.  `Sc` stands for the clear scalar type and
`conv` for the `From<Scalar>` conversion into the combination's scalar
kind `S`; `c1` is the capability's `constant_one` wire. -/
def Scalar.into_lc {V S Sc : Type} (c1 : V) (conv : Sc → S) (s : Sc) :
    LinearCombination V S :=
  { terms := [(c1, conv s)]
    precomputed := Assignment.Value (conv s) }

/-- `impl IntoLC<V> for OpaqueScalar where V: Variable<ValueType=OpaqueScalar>`:
a bare opaque-scalar constant becomes the single term
`(V::constant_one(), s)` with precomputed `Assignment::Value(s)`. -/
def OpaqueScalar.into_lc {V S : Type} (c1 : V) (s : S) :
    LinearCombination V S :=
  { terms := [(c1, s)]
    precomputed := Assignment.Value s }

/-- `impl IntoLC<V> for V`: a bare variable becomes the single term
`(v, V::ValueType::one())` with precomputed `v.assignment()`.  The
capability query `assignment` is the explicit first argument. -/
def Variable.into_lc {V S : Type} [One S] (assignment : V → Assignment S)
    (v : V) : LinearCombination V S :=
  { terms := [(v, 1)]
    precomputed := assignment v }

/-- `impl IntoLC<V> for (V, Scalar)`: a variable-weight pair becomes the
single term `(v, w.into())` with precomputed `v.assignment() * w` under
tri-state lifting; `conv` is the `From<Scalar>` weight conversion. -/
def Pair.into_lc {V S Sc : Type} [Mul S] (assignment : V → Assignment S)
    (conv : Sc → S) (v : V) (w : Sc) : LinearCombination V S :=
  { terms := [(v, conv w)]
    precomputed := Assignment.mul (assignment v) (Assignment.Value (conv w)) }

/-- `impl IntoLC<V> for (V, OpaqueScalar) where V: Variable<ValueType=OpaqueScalar>`:
a variable with an opaque weight becomes the single term `(v, w)` with
precomputed `v.assignment() * w` under tri-state lifting. -/
def OpaquePair.into_lc {V S : Type} [Mul S] (assignment : V → Assignment S)
    (v : V) (w : S) : LinearCombination V S :=
  { terms := [(v, w)]
    precomputed := Assignment.mul (assignment v) (Assignment.Value w) }

/-- `LinearCombination::eval`: returns the precomputed evaluation. -/
def LinearCombination.eval {V S : Type} (lc : LinearCombination V S) :
    Assignment S :=
  lc.precomputed

/-- `LinearCombination::eval` rendered as an explicit state transformer:
the Rust method borrows `&self` immutably and copies out `precomputed`,
so the embedding returns the result together with the (unchanged)
receiver state. -/
def LinearCombination.evalState {V S : Type} (lc : LinearCombination V S) :
    Assignment S × LinearCombination V S :=
  (lc.precomputed, lc)

/-- `LinearCombination::into_opaque`: widens every term's variable and
weight individually and opaque-lifts the precomputed evaluation.  The
trait-level widening maps `V::into_opaque` and `ValueType::into_opaque`
are the explicit arguments `fV` and `fS`. -/
def LinearCombination.into_opaque {V W S T : Type} (fV : V → W) (fS : S → T)
    (lc : LinearCombination V S) : LinearCombination W T :=
  { precomputed := Assignment.into_opaque fS lc.precomputed
    terms := lc.terms.map (fun p => (fV p.1, fS p.2)) }

/-- `impl Default for LinearCombination`: the empty linear combination,
with no terms and precomputed `Assignment::Value(zero)`. -/
def LinearCombination.default {V S : Type} [Zero S] : LinearCombination V S :=
  { terms := []
    precomputed := Assignment.Value 0 }

/-- `impl Add<T> for LinearCombination` after the operand has been
canonicalized by `into_lc`: the precomputed evaluations are added under
tri-state lifting and the right operand's terms are appended. -/
def LinearCombination.add {V S : Type} [Add S]
    (a b : LinearCombination V S) : LinearCombination V S :=
  { precomputed := Assignment.add a.precomputed b.precomputed
    terms := a.terms ++ b.terms }

/-- `impl Sub<T> for LinearCombination` after canonicalization of the
operand: the precomputed evaluations are subtracted under tri-state
lifting and the right operand's terms are appended with negated weights. -/
def LinearCombination.sub {V S : Type} [Sub S] [Neg S]
    (a b : LinearCombination V S) : LinearCombination V S :=
  { precomputed := Assignment.sub a.precomputed b.precomputed
    terms := a.terms ++ b.terms.map (fun p => (p.1, -p.2)) }

/-- `impl Mul<V::ValueType> for LinearCombination`: the precomputed
evaluation is multiplied by `Assignment::Value(scalar)` and every term's
weight is multiplied by the scalar in place. -/
def LinearCombination.mul {V S : Type} [Mul S]
    (a : LinearCombination V S) (scalar : S) : LinearCombination V S :=
  { precomputed := Assignment.mul a.precomputed (Assignment.Value scalar)
    terms := a.terms.map (fun p => (p.1, p.2 * scalar)) }

/-- The tri-state sum of `snapshot_i * weight_i` over the terms of a
linear combination, where `snaps` records, term by term, the tri-state
assignment each term's variable had at the moment the term was added
(`Assignment.Value 1` for a constant term, since `constant_one` is the
wire whose value is the literal one). -/
def snapshotSum {V S : Type} [Add S] [Mul S] [Zero S] :
    List (Assignment S) → List (V × S) → Assignment S
  | a :: rest, (_, w) :: ts =>
      Assignment.add (Assignment.mul a (Assignment.Value w)) (snapshotSum rest ts)
  | _, _ => Assignment.Value 0

/-- The linear combinations reachable through the exposed operations:
the canonicalization entry points, addition, subtraction, scalar
multiplication, opaque widening and the empty combination.  The index
`snaps` is the ghost trace of the assignments read at the moment each
term was added; canonicalization steps may each read a different
assignment function, so the trace is a snapshot, not a live
recomputation.  Opaque widening carries the scalar-kind widening as a
ring homomorphism, reflecting that the opaque scalar supports the same
algebraic combination as the clear one. -/
inductive EvalInv : {V S : Type} → [Ring S] →
    LinearCombination V S → List (Assignment S) → Prop where
  | empty {V S : Type} [Ring S] :
      EvalInv (LinearCombination.default : LinearCombination V S) []
  | scalar {V S Sc : Type} [Ring S] (c1 : V) (conv : Sc → S) (s : Sc) :
      EvalInv (Scalar.into_lc c1 conv s) [Assignment.Value 1]
  | oscalar {V S : Type} [Ring S] (c1 : V) (s : S) :
      EvalInv (OpaqueScalar.into_lc c1 s) [Assignment.Value 1]
  | var {V S : Type} [Ring S] (assignment : V → Assignment S) (v : V) :
      EvalInv (Variable.into_lc assignment v) [assignment v]
  | pair {V S Sc : Type} [Ring S] (assignment : V → Assignment S)
      (conv : Sc → S) (v : V) (w : Sc) :
      EvalInv (Pair.into_lc assignment conv v w) [assignment v]
  | opair {V S : Type} [Ring S] (assignment : V → Assignment S) (v : V)
      (w : S) :
      EvalInv (OpaquePair.into_lc assignment v w) [assignment v]
  | add {V S : Type} [Ring S] {A B : LinearCombination V S}
      {ga gb : List (Assignment S)} :
      EvalInv A ga → EvalInv B gb → EvalInv (LinearCombination.add A B) (ga ++ gb)
  | sub {V S : Type} [Ring S] {A B : LinearCombination V S}
      {ga gb : List (Assignment S)} :
      EvalInv A ga → EvalInv B gb → EvalInv (LinearCombination.sub A B) (ga ++ gb)
  | mul {V S : Type} [Ring S] {A : LinearCombination V S}
      {ga : List (Assignment S)} (s : S) :
      EvalInv A ga → EvalInv (LinearCombination.mul A s) ga
  | widen {V W S T : Type} [Ring S] [Ring T] {A : LinearCombination V S}
      {ga : List (Assignment S)} (fV : V → W) (fS : S →+* T) :
      EvalInv A ga →
      EvalInv ( LinearCombination.into_opaque fV (⇑fS) A)
        (ga.map ( Assignment.into_opaque (⇑fS)))

/-- Tri-state addition is associative when the scalar addition is. -/
theorem assign_add_assoc {S : Type} [Ring S] (a b c : Assignment S) :
    Assignment.add (Assignment.add a b) c =
      Assignment.add a (Assignment.add b c) := by
  cases a <;> cases b <;> cases c <;> simp [Assignment.add, add_assoc]

/-- `Known(zero)` is a right unit for tri-state addition. -/
theorem assign_add_value_zero {S : Type} [Ring S] (a : Assignment S) :
    Assignment.add a (Assignment.Value 0) = a := by
  cases a <;> simp [Assignment.add]

/-- `Known(zero)` is a left unit for tri-state addition. -/
theorem assign_value_zero_add {S : Type} [Ring S] (a : Assignment S) :
    Assignment.add (Assignment.Value 0) a = a := by
  cases a <;> simp [Assignment.add]

/-- `Unknown` absorbs on the right of tri-state addition. -/
theorem assign_add_missing {S : Type} [Add S] (a : Assignment S) :
    Assignment.add a Assignment.Missing = Assignment.Missing := by
  cases a <;> rfl

/-- Tri-state subtraction is tri-state addition of the negation. -/
theorem assign_sub_eq_add_neg {S : Type} [Ring S] (a b : Assignment S) :
    Assignment.sub a b = Assignment.add a (Assignment.neg b) := by
  cases a <;> cases b <;> simp [Assignment.sub, Assignment.add, Assignment.neg,
    sub_eq_add_neg]

/-- The snapshot sum splits over appending, as long as the first ghost
trace covers exactly the first term list. -/
theorem snapshotSum_append {V S : Type} [Ring S]
    (ga gb : List (Assignment S)) (ta tb : List (V × S))
    (h : ga.length = ta.length) :
    snapshotSum (ga ++ gb) (ta ++ tb) =
      Assignment.add (snapshotSum ga ta) (snapshotSum gb tb) := by
  induction ga generalizing ta with
  | nil =>
    cases ta with
    | nil => simp [snapshotSum, assign_value_zero_add]
    | cons t ts => simp at h
  | cons a ras ih =>
    cases ta with
    | nil => simp at h
    | cons t ts =>
      obtain ⟨v, w⟩ := t
      simp only [List.cons_append, snapshotSum, List.append_eq]
      rw [ih ts (by simpa using h), ← assign_add_assoc]

/-- Scaling every weight scales the snapshot sum. -/
theorem snapshotSum_mul {V S : Type} [Ring S]
    (ga : List (Assignment S)) (ta : List (V × S)) (s : S) :
    snapshotSum ga (ta.map (fun p => (p.1, p.2 * s))) =
      Assignment.mul (snapshotSum ga ta) (Assignment.Value s) := by
  induction ga generalizing ta with
  | nil =>
    cases ta <;> simp [snapshotSum, Assignment.mul]
  | cons a ras ih =>
    cases ta with
    | nil => simp [snapshotSum, Assignment.mul]
    | cons t ts =>
      obtain ⟨v, w⟩ := t
      simp only [List.map_cons, snapshotSum]
      rw [ih ts]
      cases a <;> cases snapshotSum ras ts <;>
        simp [Assignment.add, Assignment.mul, add_mul, mul_assoc]

/-- Negating every weight negates the snapshot sum. -/
theorem snapshotSum_neg {V S : Type} [Ring S]
    (ga : List (Assignment S)) (ta : List (V × S)) :
    snapshotSum ga (ta.map (fun p => (p.1, -p.2))) =
      Assignment.neg (snapshotSum ga ta) := by
  induction ga generalizing ta with
  | nil =>
    cases ta <;> simp [snapshotSum, Assignment.neg]
  | cons a ras ih =>
    cases ta with
    | nil => simp [snapshotSum, Assignment.neg]
    | cons t ts =>
      obtain ⟨v, w⟩ := t
      simp only [List.map_cons, snapshotSum]
      rw [ih ts]
      cases a <;> cases snapshotSum ras ts <;>
        simp [Assignment.add, Assignment.mul, Assignment.neg, mul_neg, neg_add,
          add_comm]

/-- Widening the ghost trace and the terms through a ring homomorphism
commutes with the snapshot sum. -/
theorem snapshotSum_map_hom {V W S T : Type} [Ring S] [Ring T]
    (f : S →+* T) (fV : V → W)
    (ga : List (Assignment S)) (ta : List (V × S)) :
    snapshotSum (ga.map ( Assignment.into_opaque (⇑f)))
        (ta.map (fun p => (fV p.1, f p.2))) =
      Assignment.into_opaque (⇑f) (snapshotSum ga ta) := by
  induction ga generalizing ta with
  | nil =>
    cases ta <;> simp [snapshotSum, Assignment.into_opaque]
  | cons a ras ih =>
    cases ta with
    | nil => simp [snapshotSum, Assignment.into_opaque]
    | cons t ts =>
      obtain ⟨v, w⟩ := t
      simp only [List.map_cons, snapshotSum]
      rw [ih ts]
      cases a <;> cases snapshotSum ras ts <;>
        simp [Assignment.add, Assignment.mul, Assignment.into_opaque,
          map_add, map_mul]

/-- A reachable combination's ghost snapshot trace has exactly one entry
per term, in order. -/
theorem evalInv_length {V S : Type} [Ring S]
    {lc : LinearCombination V S} {snaps : List (Assignment S)}
    (h : EvalInv lc snaps) : snaps.length = lc.terms.length := by
  induction h with
  | empty => rfl
  | scalar c1 conv s => rfl
  | oscalar c1 s => rfl
  | var assignment v => rfl
  | pair assignment conv v w => rfl
  | opair assignment v w => rfl
  | add ha hb iha ihb =>
    simp [LinearCombination.add, iha, ihb]
  | sub ha hb iha ihb =>
    simp [LinearCombination.sub, iha, ihb]
  | mul s ha iha =>
    simp [LinearCombination.mul, iha]
  | widen fV fS ha iha =>
    simp [LinearCombination.into_opaque, iha]

/-- The precomputed evaluation of every reachable combination equals the
tri-state snapshot sum over its terms. -/
theorem evalInv_precomputed {V S : Type} [Ring S]
    {lc : LinearCombination V S} {snaps : List (Assignment S)}
    (h : EvalInv lc snaps) : lc.precomputed = snapshotSum snaps lc.terms := by
  induction h with
  | empty => rfl
  | scalar c1 conv s =>
    simp [Scalar.into_lc, snapshotSum, Assignment.mul, Assignment.add]
  | oscalar c1 s =>
    simp [OpaqueScalar.into_lc, snapshotSum, Assignment.mul, Assignment.add]
  | var assignment v =>
    cases hv : assignment v <;>
      simp [Variable.into_lc, snapshotSum, Assignment.mul, Assignment.add, hv]
  | pair assignment conv v w =>
    cases hv : assignment v <;>
      simp [Pair.into_lc, snapshotSum, Assignment.mul, Assignment.add, hv]
  | opair assignment v w =>
    cases hv : assignment v <;>
      simp [OpaquePair.into_lc, snapshotSum, Assignment.mul, Assignment.add, hv]
  | add ha hb iha ihb =>
    rename_i A B ga gb
    show Assignment.add A.precomputed B.precomputed =
      snapshotSum (ga ++ gb) (A.terms ++ B.terms)
    rw [iha, ihb,
      snapshotSum_append ga gb A.terms B.terms (evalInv_length ha)]
  | sub ha hb iha ihb =>
    rename_i A B ga gb
    show Assignment.sub A.precomputed B.precomputed =
      snapshotSum (ga ++ gb) (A.terms ++ B.terms.map fun p => (p.1, -p.2))
    rw [assign_sub_eq_add_neg, iha, ihb, ← snapshotSum_neg,
      ← snapshotSum_append ga gb A.terms (B.terms.map fun p => (p.1, -p.2))
        (evalInv_length ha)]
  | mul s ha iha =>
    rename_i A ga
    show Assignment.mul A.precomputed (Assignment.Value s) =
      snapshotSum ga (A.terms.map fun p => (p.1, p.2 * s))
    rw [iha, ← snapshotSum_mul]
  | widen fV fS ha iha =>
    rename_i A ga
    show Assignment.into_opaque (⇑fS) A.precomputed =
      snapshotSum (ga.map ( Assignment.into_opaque (⇑fS)))
        (A.terms.map fun p => (fV p.1, fS p.2))
    rw [iha, ← snapshotSum_map_hom fS fV ga A.terms]

/-- A snapshot trace containing `Unknown` forces the snapshot sum to
`Unknown`, provided the trace covers the whole term list. -/
theorem snapshotSum_missing {V S : Type} [Ring S]
    {ga : List (Assignment S)} {ta : List (V × S)}
    (hlen : ga.length = ta.length) (hm : Assignment.Missing ∈ ga) :
    snapshotSum ga ta = Assignment.Missing := by
  induction ga generalizing ta with
  | nil => cases hm
  | cons a ras ih =>
    cases ta with
    | nil => simp at hlen
    | cons t ts =>
      obtain ⟨v, w⟩ := t
      rcases List.mem_cons.mp hm with hma | hmr
      · subst hma
        rfl
      · show Assignment.add _ (snapshotSum ras ts) = _
        rw [ih (by simpa using hlen) hmr, assign_add_missing]

/-- C1: for every linear combination reachable through the exposed
operations (the canonicalization entry points, addition, subtraction,
scalar multiplication, opaque widening and the empty combination), the
cached evaluation returned by `eval()` equals the tri-state sum, with
absorption, over its terms of the assignment the term's variable had at
the moment the term was added times the term's current weight; and
`eval()` returns the cached `precomputed` field itself, never walking
the term list. -/
theorem c1_cached_eval_invariant {V S : Type} [Ring S]
    {lc : LinearCombination V S} {snaps : List (Assignment S)}
    (h : EvalInv lc snaps) :
    LinearCombination.eval lc = snapshotSum snaps lc.terms ∧
    LinearCombination.eval lc = lc.precomputed :=
  ⟨evalInv_precomputed h, rfl⟩

/-- Concrete instance of the C1 invariant: the combination
`x + 7` with `x` assigned `3` is reachable and its cached evaluation
matches its snapshot sum. -/
theorem c1_cached_eval_invariant_witness :
    LinearCombination.eval
        (LinearCombination.add
          (Variable.into_lc (fun _ : ℕ => Assignment.Value (3 : ℤ)) 0)
          (Scalar.into_lc 0 (fun t : ℤ => t) 7)) =
      snapshotSum [Assignment.Value 3, Assignment.Value 1]
        (LinearCombination.add
          (Variable.into_lc (fun _ : ℕ => Assignment.Value (3 : ℤ)) 0)
          (Scalar.into_lc 0 (fun t : ℤ => t) 7)).terms :=
  (c1_cached_eval_invariant
    (EvalInv.add (EvalInv.var _ 0) (EvalInv.scalar 0 _ 7))).1

/-- C2: if any term's variable had an `Unknown` assignment at the moment
it was added, the `eval()` of every combination reachable from it through
addition, subtraction, scalar multiplication (and the other exposed
operations) is `Unknown`, regardless of the other terms' values. -/
theorem c2_unknown_absorbs_eval {V S : Type} [Ring S]
    {lc : LinearCombination V S} {snaps : List (Assignment S)}
    (h : EvalInv lc snaps) (hm : Assignment.Missing ∈ snaps) :
    LinearCombination.eval lc = Assignment.Missing := by
  show lc.precomputed = _
  rw [evalInv_precomputed h]
  exact snapshotSum_missing (evalInv_length h) hm

/-- Concrete instance of C2: subtracting a variable whose assignment is
`Unknown` from the known constant `5` yields an `Unknown` evaluation. -/
theorem c2_unknown_absorbs_eval_witness :
    LinearCombination.eval
        (LinearCombination.sub
          (Scalar.into_lc (0 : ℕ) (fun t : ℤ => t) 5)
          (Variable.into_lc
            (fun _ : ℕ => (Assignment.Missing : Assignment ℤ)) 1)) =
      Assignment.Missing :=
  c2_unknown_absorbs_eval
    (EvalInv.sub (EvalInv.scalar 0 _ 5) (EvalInv.var _ 1))
    (by decide)

/-- C3: adding a canonicalized operand `B` (the image under `into_lc` of
any canonicalizable shape; `into_lc` of an existing combination is the
identity, so every combination arises this way) appends `B`'s terms on
the right with no merging, makes the term count additive, and adds the
cached evaluations under tri-state lifting. -/
theorem c3_add_appends_terms {V S : Type} [Ring S]
    (A B : LinearCombination V S) :
    (LinearCombination.add A B).terms = A.terms ++ B.terms ∧
    (LinearCombination.add A B).terms.length =
      A.terms.length + B.terms.length ∧
    LinearCombination.eval (LinearCombination.add A B) =
      Assignment.add (LinearCombination.eval A) (LinearCombination.eval B) :=
  ⟨rfl, by simp [LinearCombination.add], rfl⟩

/-- C4: subtracting a canonicalized operand `B` appends `B`'s terms with
negated weights (variables unchanged) and subtracts the cached
evaluations under tri-state lifting. -/
theorem c4_sub_appends_negated_terms {V S : Type} [Ring S]
    (A B : LinearCombination V S) :
    (LinearCombination.sub A B).terms =
      A.terms ++ B.terms.map (fun p => (p.1, -p.2)) ∧
    LinearCombination.eval (LinearCombination.sub A B) =
      Assignment.sub (LinearCombination.eval A) (LinearCombination.eval B) :=
  ⟨rfl, rfl⟩

/-- C5: multiplying by a scalar of the combination's kind keeps the term
count, keeps each variable while multiplying its weight by the scalar,
and multiplies the cached evaluation by `Known(s)` under tri-state
lifting. -/
theorem c5_mul_scales_weights {V S : Type} [Ring S]
    (A : LinearCombination V S) (s : S) :
    (LinearCombination.mul A s).terms.length = A.terms.length ∧
    (LinearCombination.mul A s).terms =
      A.terms.map (fun p => (p.1, p.2 * s)) ∧
    LinearCombination.eval (LinearCombination.mul A s) =
      Assignment.mul (LinearCombination.eval A) (Assignment.Value s) :=
  ⟨by simp [LinearCombination.mul], rfl, rfl⟩

/-- C6: canonicalizing a bare variable yields the single term `(v, one)`
with cached evaluation `v.assignment()`; canonicalizing a
(variable, weight) pair — with the clear weight converted into the
combination's scalar kind, or an opaque weight taken as is — yields the
single term `(v, weight)` with cached evaluation
`v.assignment() * weight` under tri-state lifting; and canonicalizing an
existing combination returns it unchanged. -/
theorem c6_into_lc_variable_shapes {V S Sc : Type} [Ring S]
    (assignment : V → Assignment S) (v : V) (conv : Sc → S) (w : Sc)
    (wo : S) (lc : LinearCombination V S) :
    (Variable.into_lc assignment v).terms = [(v, 1)] ∧
    LinearCombination.eval (Variable.into_lc assignment v) = assignment v ∧
    (Pair.into_lc assignment conv v w).terms = [(v, conv w)] ∧
    LinearCombination.eval (Pair.into_lc assignment conv v w) =
      Assignment.mul (assignment v) (Assignment.Value (conv w)) ∧
    (OpaquePair.into_lc assignment v wo).terms = [(v, wo)] ∧
    LinearCombination.eval (OpaquePair.into_lc assignment v wo) =
      Assignment.mul (assignment v) (Assignment.Value wo) ∧
    LinearCombination.into_lc lc = lc :=
  ⟨rfl, rfl, rfl, rfl, rfl, rfl, rfl⟩

/-- C7: canonicalizing a bare clear-scalar constant (converted into the
combination's scalar kind) or a bare opaque-scalar constant yields the
single term `(constant_one, s)` with cached evaluation `Known(s)`. -/
theorem c7_into_lc_constants {V S Sc : Type} (c1 : V) (conv : Sc → S)
    (s : Sc) (t : S) :
    (Scalar.into_lc c1 conv s).terms = [(c1, conv s)] ∧
    LinearCombination.eval (Scalar.into_lc c1 conv s) =
      Assignment.Value (conv s) ∧
    (OpaqueScalar.into_lc c1 t).terms = [(c1, t)] ∧
    LinearCombination.eval (OpaqueScalar.into_lc c1 t) =
      Assignment.Value t :=
  ⟨rfl, rfl, rfl, rfl⟩

/-- C8: opaque widening is total, preserves the term count and order
(widening each term's variable and weight individually through the
capability maps) and its evaluation is the opaque lift of the original
evaluation (`Known(s)` to `Known(s.to_opaque())`, `Unknown` to
`Unknown`). -/
theorem c8_into_opaque_preserves_structure {V W S T : Type}
    (fV : V → W) (fS : S → T) (A : LinearCombination V S) :
    ( LinearCombination.into_opaque fV fS A).terms.length =
      A.terms.length ∧
    ( LinearCombination.into_opaque fV fS A).terms =
      A.terms.map (fun p => (fV p.1, fS p.2)) ∧
    LinearCombination.eval ( LinearCombination.into_opaque fV fS A) =
      Assignment.into_opaque fS (LinearCombination.eval A) :=
  ⟨by simp [ LinearCombination.into_opaque], rfl, rfl⟩

/-- C9: the empty combination has no terms and cached evaluation
`Known(zero)`, and adding it on the right of any combination `A` leaves
both `A`'s terms and `A`'s evaluation unchanged. -/
theorem c9_empty_right_identity {V S : Type} [Ring S]
    (A : LinearCombination V S) :
    (LinearCombination.default : LinearCombination V S).terms = [] ∧
    LinearCombination.eval
        (LinearCombination.default : LinearCombination V S) =
      Assignment.Value 0 ∧
    (LinearCombination.add A LinearCombination.default).terms = A.terms ∧
    LinearCombination.eval (LinearCombination.add A LinearCombination.default) =
      LinearCombination.eval A := by
  refine ⟨rfl, rfl, ?_, ?_⟩
  · simp [LinearCombination.add, LinearCombination.default]
  · show Assignment.add A.precomputed (Assignment.Value 0) = A.precomputed
    exact assign_add_value_zero A.precomputed

/-- C10: `eval()` borrows the combination immutably — rendered as a
state transformer it returns the receiver unchanged — and two successive
calls on the same unmodified combination return equal values. -/
theorem c10_eval_is_pure {V S : Type} (lc : LinearCombination V S) :
    (LinearCombination.evalState lc).2 = lc ∧
    (LinearCombination.evalState lc).1 =
      (LinearCombination.evalState (LinearCombination.evalState lc).2).1 :=
  ⟨rfl, rfl⟩
